import Mathlib

/-!
Verification of the projectMobileX geospatial weight-redistribution pipeline.

The Python sources are shallowly embedded here:
  - `MilanCensusMapping/milan_grid_census_codes_map.py` (partition overlap mapper),
  - `Milan-to-Milan/mi_to_mi.py` (streaming aggregation),
  - `Milan-to-Milan/mi_to_mi_blocks.py` (block-to-block redistribution, attribute
    merge, hole filling),
  - `Milan-to-Countries/mi_to_countries.py` (record validation, per-direction
    normalization),
  - `Milan-to-Countries/mi_to_countries_blocks.py` (block-to-country
    redistribution and annotation).

Polygons are modelled as finite sets of unit grid points, with area = cardinality;
shapely's `overlaps` predicate is modelled by its documented semantics (the two
geometries share some but not all points).  Python floats are modelled as exact
rationals, Python dicts as association lists in insertion order, and networkx
undirected graphs as a node list plus an edge list keyed by unordered pairs.
Raising Python code is modelled with `Except`.
-/

namespace MobileX

/-- Lookup in an association list (Python dict access, first binding wins). -/
def mapLookup {α β : Type} [DecidableEq α] : List (α × β) → α → Option β
  | [], _ => none
  | (k, v) :: rest, key => if k = key then some v else mapLookup rest key

/-- Lookup of the weight of the undirected edge between `u` and `v`
(networkx `graph.edges[u, v]['weight']`, where the pair is unordered). -/
def edgeLookup {α : Type} [DecidableEq α] : List ((α × α) × ℚ) → α → α → Option ℚ
  | [], _, _ => none
  | (p, w) :: rest, u, v =>
    if (p.1 = u ∧ p.2 = v) ∨ (p.1 = v ∧ p.2 = u) then some w else edgeLookup rest u v

/-- Add `w` to the weight of the undirected edge between `u` and `v`, creating
the edge when absent.  This models the recurring Python pattern
`try: graph.edges[u, v]['weight'] += w  except KeyError: graph.add_edge(u, v, weight=w)`. -/
def addWeight {α : Type} [DecidableEq α] : List ((α × α) × ℚ) → α → α → ℚ → List ((α × α) × ℚ)
  | [], u, v, w => [((u, v), w)]
  | (p, w0) :: rest, u, v, w =>
    if (p.1 = u ∧ p.2 = v) ∨ (p.1 = v ∧ p.2 = u) then (p, w0 + w) :: rest
    else (p, w0) :: addWeight rest u v w

/-- Add a node if not already present (`if not graph.has_node(x): graph.add_node(x)`). -/
def addNode {α : Type} [DecidableEq α] (ns : List α) (x : α) : List α :=
  if x ∈ ns then ns else ns ++ [x]

/-- Edges incident to `x`, reported from `x`'s side
(networkx `graph.edges([x], data=True)` yielding `(x, neighbor, attributes)`). -/
def incidentEdges {α : Type} [DecidableEq α] (es : List ((α × α) × ℚ)) (x : α) :
    List (α × α × ℚ) :=
  es.filterMap fun pw =>
    if pw.1.1 = x then some (x, pw.1.2, pw.2)
    else if pw.1.2 = x then some (x, pw.1.1, pw.2) else none

/-! ## Partition overlap mapper (`milan_grid_census_codes_map.py`) -/

/-- Area of a polygon, modelled as the number of unit grid points it covers
(shapely `polygon.area`). -/
def area (p : Finset (ℤ × ℤ)) : ℚ := (p.card : ℚ)

/-- Shapely `a.overlaps(b)`: the geometries share some but not all points, so the
predicate is false both for disjoint polygons and when one contains the other. -/
def overlaps (a b : Finset (ℤ × ℤ)) : Bool :=
  decide ((a ∩ b).Nonempty ∧ ¬a ⊆ b ∧ ¬b ⊆ a)

/-- Snapping of a percentage that is "effectively float error", from the body of
`create_sezioni_censimento_millan_grid_map`:
`if p < 1e-4: p = 0  elif p > 0.9999: p = 1`. -/
def snapPct (p : ℚ) : ℚ :=
  if p < 1 / 10000 then 0 else if p > 9999 / 10000 then 1 else p

/-- Snapping as the specification words it: a value within 1e-4 of 0 becomes 0, a
value within 1e-4 of 1 becomes 1, anything else is unchanged.  Stated from the
spec for comparison with `snapPct`. -/
def claimSnap (p : ℚ) : ℚ :=
  if |p - 0| < 1 / 10000 then 0 else if |p - 1| < 1 / 10000 then 1 else p

/-- A census polygon: census codes scraped from the geojson plus its polygon. -/
structure CensusPoly where
  codes : List (String × String)
  polygon : Finset (ℤ × ℤ)

/-- A Milan grid cell: the cell id plus its polygon. -/
structure MilanPoly where
  cellId : String
  polygon : Finset (ℤ × ℤ)

/-- One entry of a cell's overlap list, as written to
`milan_grid_census_codes_map_percents_both.json`. -/
structure MilanSection where
  censusAreaPercentage : ℚ
  milanAreaPercentage : ℚ
  censusCodes : List (String × String)
deriving DecidableEq

/-- The record the mapper produces for one (cell, census block) pair: when the
polygons overlap, both percentages are derived from one intersection area and
snapped; otherwise the pair yields nothing. -/
def pairRecord (m : MilanPoly) (c : CensusPoly) : Option MilanSection :=
  if overlaps m.polygon c.polygon then
    some
      { censusAreaPercentage := snapPct (area (m.polygon ∩ c.polygon) / area c.polygon)
        milanAreaPercentage := snapPct (area (m.polygon ∩ c.polygon) / area m.polygon)
        censusCodes := c.codes }
  else none

/-- The overlap list produced for one cell: every census polygon is tested in
order and the overlapping ones are appended. -/
def cellEntries (m : MilanPoly) (censusPolygons : List CensusPoly) : List MilanSection :=
  censusPolygons.filterMap (pairRecord m)

/-- The grid mapping written out by `create_sezioni_censimento_millan_grid_map`:
each cell id is mapped to its list of overlap entries. -/
def create_sezioni_censimento_millan_grid_map (milanPolygons : List MilanPoly)
    (censusPolygons : List CensusPoly) : List (String × List MilanSection) :=
  milanPolygons.map fun mp => (mp.cellId, cellEntries mp censusPolygons)

/-! ## Record validation (`mi_to_countries.py`, `is_int` / `is_float` / `validate`) -/

/-- A Python value as it can appear in a token slot after validation: the
original string, a parsed integer, a parsed float, or the boolean `False`
returned by `is_int` / `is_float` on parse failure. -/
inductive PyVal where
  | vstr (s : String)
  | vint (n : ℤ)
  | vfloat (q : ℚ)
  | vbool (b : Bool)
deriving DecidableEq

/-- Numeric view of a Python value: Python treats booleans as the numbers 0 and
1 for `==`, while strings are not numbers. -/
def pyNum : PyVal → Option ℚ
  | .vint n => some (n : ℚ)
  | .vfloat q => some q
  | .vbool b => some (if b then 1 else 0)
  | .vstr _ => none

/-- Python `==` on the values `validate` manipulates: numeric values (including
booleans) compare by value across types, strings compare only with strings. -/
def pyEq (a b : PyVal) : Bool :=
  match pyNum a, pyNum b with
  | some x, some y => decide (x = y)
  | none, none =>
    match a, b with
    | .vstr s, .vstr t => decide (s = t)
    | _, _ => false
  | _, _ => false

/-- Decimal digit value of a character, if it is a digit. -/
def digitVal? (c : Char) : Option ℕ :=
  if 48 ≤ c.toNat ∧ c.toNat ≤ 57 then some (c.toNat - 48) else none

/-- Accumulating decimal parser over the remaining characters. -/
def parseNatFrom (acc : ℕ) : List Char → Option ℕ
  | [] => some acc
  | c :: rest =>
    match digitVal? c with
    | some d => parseNatFrom (acc * 10 + d) rest
    | none => none

/-- Parse a nonempty all-digit character list as a natural number. -/
def parseNat? : List Char → Option ℕ
  | [] => none
  | c :: rest => parseNatFrom 0 (c :: rest)

/-- Parse an optionally negated decimal integer (Python `int(s)` on the plain
decimal literals appearing in the extracts). -/
def parseInt? (cs : List Char) : Option ℤ :=
  match cs with
  | c :: rest =>
    if c.toNat = 45 then (parseNat? rest).map fun n => -(n : ℤ)
    else (parseNat? cs).map fun n => (n : ℤ)
  | [] => none

/-- Split a character list on the decimal point. -/
def splitDot (cur : List Char) : List Char → List (List Char)
  | [] => [cur.reverse]
  | c :: rest =>
    if c.toNat = 46 then cur.reverse :: splitDot [] rest else splitDot (c :: cur) rest

/-- Python `float(s)` on the simple decimal literals appearing in the extracts:
an optional sign, digits, and an optional fractional part. -/
def parseFloat? (s : String) : Option ℚ :=
  match splitDot [] s.data with
  | [a] => (parseInt? a).map fun n => (n : ℚ)
  | [a, b] =>
    match parseInt? a, parseNat? b with
    | some n, some f =>
      let frac : ℚ := (f : ℚ) / ((10 : ℚ) ^ b.length)
      some (if (a.take 1).any (fun c => c.toNat = 45) then (n : ℚ) - frac else (n : ℚ) + frac)
    | _, _ => none
  | _ => none

/-- Translation of `is_int`: the empty string is returned unchanged, a parsable
string becomes an integer, anything else becomes Python `False`. -/
def is_int (s : String) : PyVal :=
  if s = "" then .vstr s
  else
    match parseInt? s.data with
    | some n => .vint n
    | none => .vbool false

/-- Translation of `is_float`: the empty string is returned unchanged, a
parsable string becomes a float, anything else becomes Python `False`. -/
def is_float (s : String) : PyVal :=
  if s = "" then .vstr s
  else
    match parseFloat? s with
    | some q => .vfloat q
    | none => .vbool false

/-- The integer 0 the guard in `validate` compares against. -/
def py0 : PyVal := .vint 0

/-- The guard of the two `raise ValueError` statements in `validate`:
`tokens[i] != 0 and tokens[i] == False`. -/
def validateGuard (v : PyVal) : Bool :=
  !pyEq v py0 && pyEq v (.vbool false)

/-- Processing of one token at index `i` inside `validate`: the timestamp at
index 1 is skipped, indexes 0 and 2 go through `is_int`, indexes 3 and up go
through `is_float`, and the guard decides whether `ValueError` is raised. -/
def checkTok (i : Nat) (s : String) : Except String PyVal :=
  if i = 1 then .ok (.vstr s)
  else
    let v := if i < 3 then is_int s else is_float s
    if validateGuard v then .error "tokens[i] is not numeric" else .ok v

/-- Helper running `checkTok` over the enumerated token list. -/
def checkToks : List (Nat × String) → Except String (List PyVal)
  | [] => .ok []
  | (i, s) :: rest =>
    match checkTok i s with
    | .error e => .error e
    | .ok v =>
      match checkToks rest with
      | .error e => .error e
      | .ok vs => .ok (v :: vs)

/-- Translation of `validate`: reject a line whose token count is not 8, then
run every token through the per-index conversion and guard. -/
def validate (tokens : List String) : Except String (List PyVal) :=
  if tokens.length ≠ 8 then .error "tokens length is not 8"
  else checkToks tokens.enum

/-! ## Streaming aggregation (`mi_to_mi.py`, `aggregate_dates`) -/

/-- The undirected cell graph built by `aggregate_dates`. -/
structure MiGraph where
  nodes : List ℕ
  edges : List ((ℕ × ℕ) × ℚ)
deriving DecidableEq

/-- Node universe of `aggregate_dates`, from
`for cellId, censusBlocks in grid.items(): if len(censusBlocks) > 1:
milanNodes.add(int(cellId))`; each grid value is the cell's list of census-block
entries (each a dictionary of census codes). -/
def milanNodesOf (grid : List (ℕ × List (List (String × String)))) : List ℕ :=
  grid.filterMap fun p => if p.2.length > 1 then some p.1 else none

/-- Processing of one parsed daily extract: entries whose endpoints are outside
the node universe are discarded, the rest add onto the edge weights. -/
def aggregateExtract (milanNodes : List ℕ) (g : MiGraph)
    (extract : List (ℕ × List (ℕ × ℚ))) : MiGraph :=
  extract.foldl
    (fun g1 entry =>
      if entry.1 ∈ milanNodes then
        entry.2.foldl
          (fun g2 inner =>
            if inner.1 ∈ milanNodes then
              ⟨g2.nodes, addWeight g2.edges entry.1 inner.1 inner.2⟩
            else g2)
          g1
      else g1)
    g

/-- Translation of `aggregate_dates`: build the node universe from the grid
mapping, add every universe cell as a node up front, then fold the extracts. -/
def aggregate_dates (grid : List (ℕ × List (List (String × String))))
    (extracts : List (List (ℕ × List (ℕ × ℚ)))) : MiGraph :=
  let milanNodes := milanNodesOf grid
  extracts.foldl (aggregateExtract milanNodes) ⟨milanNodes, []⟩

/-! ## Block-to-block redistribution (`mi_to_mi_blocks.py`, `create_census_blocks_graph`) -/

/-- One entry of the reversed block-to-cell mapping
(`milan_grid_census_codes_map_percents_REVERSE.json`): the cell id together with
the two percentages copied verbatim from the cell-to-block entry, where
`censusAreaPercentage` is intersection area over the census block's area and
`milanAreaPercentage` is intersection area over the cell's area. -/
structure CellFromEntry where
  cellID : ℕ
  censusAreaPercentage : ℚ
  milanAreaPercentage : ℚ
deriving DecidableEq

/-- One entry of the cell-to-block mapping
(`milan_grid_census_codes_map_percents.json`), with the destination block id
`int(blockTo['censusCodes']['SEZ2011'])` extracted from the census codes. -/
structure BlockToEntry where
  sez2011 : ℤ
  censusAreaPercentage : ℚ
  milanAreaPercentage : ℚ
deriving DecidableEq

/-- The weight expression of `create_census_blocks_graph`:
`cellEdgeAttributes['weight'] * cellFrom['censusAreaPercentage'] *
blockTo['censusAreaPercentage']`. -/
def contribWeight (w : ℚ) (cellFrom : CellFromEntry) (blockTo : BlockToEntry) : ℚ :=
  w * cellFrom.censusAreaPercentage * blockTo.censusAreaPercentage

/-- The undirected block-to-block graph. -/
structure BlocksGraph where
  nodes : List ℤ
  edges : List ((ℤ × ℤ) × ℚ)
deriving DecidableEq

/-- Accumulation loop of `create_census_blocks_graph`: for every block, for
every cell overlapping it, for every cell edge incident to that cell, for every
block overlapping the edge's other endpoint, add the contribution onto the
block-to-block edge. -/
def accumulateBlocks (blocksMap : List (ℤ × List CellFromEntry))
    (cellsGraph : List ((ℕ × ℕ) × ℚ)) (cellsMap : List (ℕ × List BlockToEntry)) :
    BlocksGraph :=
  blocksMap.foldl
    (fun g blockEntry =>
      let sez := blockEntry.1
      let g1 : BlocksGraph := ⟨addNode g.nodes sez, g.edges⟩
      blockEntry.2.foldl
        (fun g2 cellFrom =>
          (incidentEdges cellsGraph cellFrom.cellID).foldl
            (fun g3 e =>
              ((mapLookup cellsMap e.2.1).getD []).foldl
                (fun g4 blockTo =>
                  ⟨addNode g4.nodes blockTo.sez2011,
                    addWeight g4.edges sez blockTo.sez2011
                      (contribWeight e.2.2 cellFrom blockTo)⟩)
                g3)
            g2)
        g1)
    ⟨[], []⟩

/-- The terminal correction of `create_census_blocks_graph`:
`for (node1, node2) in blocksGraph.edges(): blocksGraph.edges[node1, node2]['weight'] /= 2`. -/
def halveEdges (es : List ((ℤ × ℤ) × ℚ)) : List ((ℤ × ℤ) × ℚ) :=
  es.map fun pw => (pw.1, pw.2 / 2)

/-- Translation of `create_census_blocks_graph`: accumulate all contributions,
then divide every edge weight by 2 once. -/
def create_census_blocks_graph (blocksMap : List (ℤ × List CellFromEntry))
    (cellsGraph : List ((ℕ × ℕ) × ℚ)) (cellsMap : List (ℕ × List BlockToEntry)) :
    BlocksGraph :=
  let g := accumulateBlocks blocksMap cellsGraph cellsMap
  ⟨g.nodes, halveEdges g.edges⟩

/-! ## Cell-to-country graphs (`mi_to_countries.py`, `json_to_networkx`) -/

/-- Node of the cell-to-country graphs: `'m' + str(cellId)` for Milan cells and
`'c' + code` for country calling codes, modelled as a tagged id. -/
inductive MCNode where
  | m (s : String)
  | c (s : String)
deriving DecidableEq

/-- The per-connection accumulation record built by `collect_json`: directional
sums with their own occurrence counts, plus the internet CDR total. -/
structure ConnectDict where
  smsIn : ℚ
  smsInCount : ℕ
  smsOut : ℚ
  smsOutCount : ℕ
  callIn : ℚ
  callInCount : ℕ
  callOut : ℚ
  callOutCount : ℕ
  cdr : ℚ
deriving DecidableEq

/-- The call weight computed in `json_to_networkx`: each direction's sum is
divided by its own count when the count is positive, and the two directional
averages are added. -/
def callWeight (d : ConnectDict) : ℚ :=
  (if d.callInCount > 0 then d.callIn / (d.callInCount : ℚ) else 0) +
    (if d.callOutCount > 0 then d.callOut / (d.callOutCount : ℚ) else 0)

/-- The SMS weight computed in `json_to_networkx`, same pattern as `callWeight`. -/
def smsWeight (d : ConnectDict) : ℚ :=
  (if d.smsInCount > 0 then d.smsIn / (d.smsInCount : ℚ) else 0) +
    (if d.smsOutCount > 0 then d.smsOut / (d.smsOutCount : ℚ) else 0)

/-- Edge accumulation shared by the three graphs `json_to_networkx` builds: for
every cell, for every country connection, add the connection's weight onto the
(cell, country) edge. -/
def buildGraphWith (f : ConnectDict → ℚ)
    (graphDict : List (String × List (String × ConnectDict))) :
    List ((MCNode × MCNode) × ℚ) :=
  graphDict.foldl
    (fun es cellEntry =>
      cellEntry.2.foldl
        (fun es2 codeEntry =>
          addWeight es2 (MCNode.m cellEntry.1) (MCNode.c codeEntry.1) (f codeEntry.2))
        es)
    []

/-- The edges of `graphCall` built by `json_to_networkx`. -/
def buildCall (graphDict : List (String × List (String × ConnectDict))) :
    List ((MCNode × MCNode) × ℚ) :=
  buildGraphWith callWeight graphDict

/-- The edges of `graphSMS` built by `json_to_networkx`. -/
def buildSms (graphDict : List (String × List (String × ConnectDict))) :
    List ((MCNode × MCNode) × ℚ) :=
  buildGraphWith smsWeight graphDict

/-! ## Block-to-country redistribution (`mi_to_countries_blocks.py`, `get_block_graph`) -/

/-- Node of the block-to-country graph: an integer census block id `SEZ2011` or
a country node `'c' + code`. -/
inductive BCNode where
  | blk (z : ℤ)
  | ctry (code : String)
deriving DecidableEq

/-- Entry of the reversed block-to-cell mapping as `get_block_graph` reads it
(cell ids are strings there, prefixed with `'m'` when looked up in the cell
graph). -/
structure CellFromEntryC where
  cellID : String
  censusAreaPercentage : ℚ
  milanAreaPercentage : ℚ
deriving DecidableEq

/-- The weight expression of `get_block_graph`:
`cellEdgeAttributes['weight'] * cellFrom['censusAreaPercentage']`. -/
def contribCountry (w : ℚ) (cellFrom : CellFromEntryC) : ℚ :=
  w * cellFrom.censusAreaPercentage

/-- The block-to-country graph. -/
structure CGraph where
  nodes : List BCNode
  edges : List ((BCNode × BCNode) × ℚ)
deriving DecidableEq

/-- Fold over a list threading `Except` (a Python `for` body that may raise). -/
def foldE {σ α : Type} (f : σ → α → Except String σ) : σ → List α → Except String σ
  | st, [] => .ok st
  | st, a :: rest =>
    match f st a with
    | .error e => .error e
    | .ok st1 => foldE f st1 rest

/-- Body of the innermost loop of `get_block_graph`: sanity-check the edge's
endpoints (from-node must be a Milan node, to-node a country node, else
`ValueError`), then add the contribution onto the (block, country) edge with no
target-side percentage. -/
def countryEdgeStep (sez : ℤ) (cellFrom : CellFromEntryC) (g : CGraph)
    (e : MCNode × MCNode × ℚ) : Except String CGraph :=
  match e.1 with
  | .c s => .error ("From Node: c" ++ s)
  | .m _ =>
    match e.2.1 with
    | .m s => .error ("To Node: m" ++ s)
    | .c code =>
      .ok
        ⟨addNode g.nodes (BCNode.ctry code),
          addWeight g.edges (BCNode.blk sez) (BCNode.ctry code)
            (contribCountry e.2.2 cellFrom)⟩

/-- Accumulation loop of `get_block_graph`: for every block, for every cell
overlapping it, for every (cell, country) edge incident to the cell, add the
contribution.  There is no divide-by-2 pass afterwards. -/
def accumulateCountries (blocksCellsMap : List (ℤ × List CellFromEntryC))
    (cellsGraph : List ((MCNode × MCNode) × ℚ)) : Except String CGraph :=
  foldE
    (fun g blockEntry =>
      let g1 : CGraph := ⟨addNode g.nodes (BCNode.blk blockEntry.1), g.edges⟩
      foldE
        (fun g2 cellFrom =>
          foldE (countryEdgeStep blockEntry.1 cellFrom) g2
            (incidentEdges cellsGraph (MCNode.m cellFrom.cellID)))
        g1 blockEntry.2)
    ⟨[], []⟩ blocksCellsMap

/-! ## Attribute merge and hole filling -/

/-- A node attribute value: a JSON value copied from the census table or name
table (`vint` or `vstr`), or Python `None` (`vnone`). -/
inductive Val where
  | vint (z : ℤ)
  | vstr (s : String)
  | vnone
deriving DecidableEq

/-- Set a key in a node's attribute dictionary, replacing an existing binding in
place or appending a new one (Python dict assignment). -/
def setAttr : List (String × Val) → String → Val → List (String × Val)
  | [], k, v => [(k, v)]
  | (k0, v0) :: rest, k, v =>
    if k0 = k then (k, v) :: rest else (k0, v0) :: setAttr rest k v

/-- Copy every key/value of a record onto a node's attributes
(`for key, attr in record.items(): graph.nodes[node][key] = attr`). -/
def copyAttrs (attrs : List (String × Val)) (rec : List (String × Val)) :
    List (String × Val) :=
  rec.foldl (fun a kv => setAttr a kv.1 kv.2) attrs

/-- Translation of `add_census_attributes` from `mi_to_mi_blocks.py`: every node
whose identifier has a census record gets the record's fields copied onto it;
nodes with no record are left untouched and their identifiers are collected in
the missing set. -/
def add_census_attributes (g : List (ℤ × List (String × Val)))
    (blocksAttr : List (String × List (String × Val))) :
    List (ℤ × List (String × Val)) × List String :=
  (g.map fun node =>
      match mapLookup blocksAttr (toString node.1) with
      | some rec => (node.1, copyAttrs node.2 rec)
      | none => node,
    (g.filter fun node => (mapLookup blocksAttr (toString node.1)).isNone).map
      fun node => toString node.1)

/-- The node annotation loop of `get_block_graph` (`mi_to_countries_blocks.py`):
country nodes get `CountryCode` and `CountryName` (the name table is accessed
directly, and a `None` name is stored as-is); block nodes get their census
record copied when one exists (`except KeyError: pass` otherwise), with the
canonical key list captured from the first record seen. -/
def annotateCountries (censusAttrs : List (String × List (String × Val)))
    (codesMap : List (String × Val)) (keys : List String) :
    List (BCNode × List (String × Val)) →
      Except String (List (BCNode × List (String × Val)) × List String)
  | [] => .ok ([], keys)
  | node :: rest =>
    match node.1 with
    | .ctry code =>
      match mapLookup codesMap code with
      | none => .error ("KeyError: " ++ code)
      | some name =>
        (annotateCountries censusAttrs codesMap keys rest).map fun pr =>
          ((node.1,
              setAttr (setAttr node.2 "CountryCode" (Val.vstr code)) "CountryName" name) ::
            pr.1,
            pr.2)
    | .blk z =>
      match mapLookup censusAttrs (toString z) with
      | none =>
        (annotateCountries censusAttrs codesMap keys rest).map fun pr =>
          (node :: pr.1, pr.2)
      | some rec =>
        (annotateCountries censusAttrs codesMap
              (if keys.isEmpty then rec.map (·.1) else keys) rest).map
          fun pr => ((node.1, copyAttrs node.2 rec) :: pr.1, pr.2)

/-- Map over a list threading `Except` (a Python loop mutating each node that
may raise). -/
def mapE {α β : Type} (f : α → Except String β) : List α → Except String (List β)
  | [] => .ok []
  | a :: rest =>
    match f a with
    | .error e => .error e
    | .ok b =>
      match mapE f rest with
      | .error e => .error e
      | .ok bs => .ok (b :: bs)

/-- The canonical attribute key list of `census_block_graph_fill_in_holes`: the
keys of the first node observed with a non-empty attribute set. -/
def firstAttrKeys (g : List (ℤ × List (String × Val))) : List String :=
  match g.find? fun p => !p.2.isEmpty with
  | some p => p.2.map (·.1)
  | none => []

/-- Per-node body of `census_block_graph_fill_in_holes`: a node with no
attributes gets every canonical key set to `None`; then, on every node, a `None`
(or absent, which raises) `SEZ2011` is replaced by the node's own identifier. -/
def fillNode (ks : List String) (p : ℤ × List (String × Val)) :
    Except String (ℤ × List (String × Val)) :=
  let attrs := if p.2.isEmpty then ks.map (fun k => (k, Val.vnone)) else p.2
  match mapLookup attrs "SEZ2011" with
  | none => .error "KeyError: SEZ2011"
  | some v =>
    .ok (p.1, if v = Val.vnone then setAttr attrs "SEZ2011" (Val.vint p.1) else attrs)

/-- The sanity check closing `census_block_graph_fill_in_holes`: every node must
have the same number of attributes as the first one, else `ValueError`. -/
def lengthCheck (g : List (ℤ × List (String × Val))) : Except String Unit :=
  match g with
  | [] => .ok ()
  | h :: t => if t.all fun p => p.2.length = h.2.length then .ok () else .error "ValueError"

/-- Translation of `census_block_graph_fill_in_holes`. -/
def census_block_graph_fill_in_holes (g : List (ℤ × List (String × Val))) :
    Except String (List (ℤ × List (String × Val))) :=
  match mapE (fillNode (firstAttrKeys g)) g with
  | .error e => .error e
  | .ok g2 =>
    match lengthCheck g2 with
    | .error e => .error e
    | .ok _ => .ok g2

/-! ## Helper lemmas -/

/-- A quotient of a nonnegative quantity by a larger one lies in `[0, 1]`
(division by zero yields 0 in `ℚ`). -/
theorem div_mem_unit (a b : ℚ) (h0 : 0 ≤ a) (h1 : a ≤ b) : 0 ≤ a / b ∧ a / b ≤ 1 := by
  rcases eq_or_lt_of_le (le_trans h0 h1) with hb | hb
  · simp [← hb]
  · exact ⟨div_nonneg h0 hb.le, (div_le_one hb).mpr h1⟩

/-- On `[0, 1]` the code's snapping agrees with the specification's description
of snapping at distance `1e-4` from the boundary. -/
theorem snapPct_eq_claimSnap (p : ℚ) (h0 : 0 ≤ p) (h1 : p ≤ 1) :
    snapPct p = claimSnap p := by
  unfold snapPct claimSnap
  rw [abs_of_nonneg (by linarith : (0 : ℚ) ≤ p - 0), abs_of_nonpos (by linarith : p - 1 ≤ 0)]
  split_ifs <;> linarith

/-- The overlap ratio against the census polygon's area lies in `[0, 1]`. -/
theorem censusRatio_mem_unit (m c : Finset (ℤ × ℤ)) :
    0 ≤ area (m ∩ c) / area c ∧ area (m ∩ c) / area c ≤ 1 := by
  refine div_mem_unit _ _ ?_ ?_
  · unfold area
    exact_mod_cast Nat.zero_le _
  · unfold area
    exact_mod_cast Finset.card_le_card Finset.inter_subset_right

/-- The overlap ratio against the cell polygon's area lies in `[0, 1]`. -/
theorem milanRatio_mem_unit (m c : Finset (ℤ × ℤ)) :
    0 ≤ area (m ∩ c) / area m ∧ area (m ∩ c) / area m ≤ 1 := by
  refine div_mem_unit _ _ ?_ ?_
  · unfold area
    exact_mod_cast Nat.zero_le _
  · unfold area
    exact_mod_cast Finset.card_le_card Finset.inter_subset_left

/-! ## Claim theorems -/

/-- C6 (confirmed): before an OverlapRecord is persisted, each of the two
percentages is snapped independently; a value within 1e-4 of 0 becomes exactly
0, a value within 1e-4 of 1 becomes exactly 1, and every other value is kept. -/
theorem c6_snapping_confirmed (m : MilanPoly) (c : CensusPoly) (r : MilanSection)
    (h : pairRecord m c = some r) :
    r.censusAreaPercentage = claimSnap (area (m.polygon ∩ c.polygon) / area c.polygon) ∧
      r.milanAreaPercentage = claimSnap (area (m.polygon ∩ c.polygon) / area m.polygon) := by
  unfold pairRecord at h
  by_cases hov : overlaps m.polygon c.polygon
  · rw [if_pos hov] at h
    obtain ⟨hc0, hc1⟩ := censusRatio_mem_unit m.polygon c.polygon
    obtain ⟨hm0, hm1⟩ := milanRatio_mem_unit m.polygon c.polygon
    cases h
    exact ⟨snapPct_eq_claimSnap _ hc0 hc1, snapPct_eq_claimSnap _ hm0 hm1⟩
  · rw [if_neg hov] at h
    cases h

/-- Witness for C6 at a concrete pair of half-overlapping polygons. -/
theorem c6_witness :
    pairRecord ⟨"c1", {(1, 0), (2, 0)}⟩ ⟨[("SEZ2011", "7")], {(2, 0), (3, 0)}⟩ =
        some ⟨1 / 2, 1 / 2, [("SEZ2011", "7")]⟩ ∧
      (⟨1 / 2, 1 / 2, [("SEZ2011", "7")]⟩ : MilanSection).censusAreaPercentage =
        claimSnap (area (({(1, 0), (2, 0)} : Finset (ℤ × ℤ)) ∩ {(2, 0), (3, 0)}) /
          area ({(2, 0), (3, 0)} : Finset (ℤ × ℤ))) ∧
      (⟨1 / 2, 1 / 2, [("SEZ2011", "7")]⟩ : MilanSection).milanAreaPercentage =
        claimSnap (area (({(1, 0), (2, 0)} : Finset (ℤ × ℤ)) ∩ {(2, 0), (3, 0)}) /
          area ({(1, 0), (2, 0)} : Finset (ℤ × ℤ))) := by
  have hpr : pairRecord ⟨"c1", {(1, 0), (2, 0)}⟩ ⟨[("SEZ2011", "7")], {(2, 0), (3, 0)}⟩ =
      some ⟨1 / 2, 1 / 2, [("SEZ2011", "7")]⟩ := by
    have hov : overlaps ({(1, 0), (2, 0)} : Finset (ℤ × ℤ)) {(2, 0), (3, 0)} = true := by
      decide
    have h1 : (({(1, 0), (2, 0)} : Finset (ℤ × ℤ)) ∩ {(2, 0), (3, 0)}) =
        ({(2, 0)} : Finset (ℤ × ℤ)) := by decide
    have h2 : (({(2, 0)} : Finset (ℤ × ℤ))).card = 1 := by decide
    have h3 : (({(1, 0), (2, 0)} : Finset (ℤ × ℤ))).card = 2 := by decide
    have h4 : (({(2, 0), (3, 0)} : Finset (ℤ × ℤ))).card = 2 := by decide
    simp [pairRecord, hov, h1, h2, h3, h4, area, snapPct]
    norm_num
  exact ⟨hpr, (c6_snapping_confirmed _ _ _ hpr).1, (c6_snapping_confirmed _ _ _ hpr).2⟩

/-- C10 (confirmed): a pair where one polygon contains the other fails the
`overlaps` test, so it produces no OverlapRecord and the cell's entry list omits
the block entirely, exactly as if there were zero coverage. -/
theorem c10_containment_confirmed (m : MilanPoly) (b : CensusPoly)
    (h : b.polygon ⊆ m.polygon ∨ m.polygon ⊆ b.polygon) :
    pairRecord m b = none ∧
      ∀ pre post : List CensusPoly,
        cellEntries m (pre ++ b :: post) = cellEntries m (pre ++ post) := by
  have hov : overlaps m.polygon b.polygon = false := by
    unfold overlaps
    rcases h with h | h
    · simp [h]
    · simp [h]
  have hrec : pairRecord m b = none := by
    unfold pairRecord
    rw [hov]
    simp
  refine ⟨hrec, fun pre post => ?_⟩
  unfold cellEntries
  rw [List.filterMap_append, List.filterMap_append, List.filterMap_cons, hrec]

/-- Witness for C10: a block strictly inside a cell leaves no trace in the
cell's overlap list. -/
theorem c10_witness :
    (⟨[("SEZ2011", "9")], {(1, 0)}⟩ : CensusPoly).polygon ⊆
        (⟨"c1", {(1, 0), (2, 0)}⟩ : MilanPoly).polygon ∧
      pairRecord ⟨"c1", {(1, 0), (2, 0)}⟩ ⟨[("SEZ2011", "9")], {(1, 0)}⟩ = none ∧
      cellEntries ⟨"c1", {(1, 0), (2, 0)}⟩
          ([⟨[("A", "1")], {(2, 0), (3, 0)}⟩] ++ ⟨[("SEZ2011", "9")], {(1, 0)}⟩ ::
            [⟨[("B", "2")], {(5, 5)}⟩]) =
        cellEntries ⟨"c1", {(1, 0), (2, 0)}⟩
          ([⟨[("A", "1")], {(2, 0), (3, 0)}⟩] ++ [⟨[("B", "2")], {(5, 5)}⟩]) :=
  ⟨by decide,
    (c10_containment_confirmed ⟨"c1", {(1, 0), (2, 0)}⟩ ⟨[("SEZ2011", "9")], {(1, 0)}⟩
        (Or.inl (by decide))).1,
    (c10_containment_confirmed ⟨"c1", {(1, 0), (2, 0)}⟩ ⟨[("SEZ2011", "9")], {(1, 0)}⟩
        (Or.inl (by decide))).2 [⟨[("A", "1")], {(2, 0), (3, 0)}⟩] [⟨[("B", "2")], {(5, 5)}⟩]⟩

/-- C4 (code_bug): `validate` does raise on a wrong token count, but its numeric
guard `tokens[i] != 0 and tokens[i] == False` is unsatisfiable under Python
equality (where `False == 0`), so a token that fails numeric parsing never
raises: the parse-failure marker `False` is returned inside the token list
instead.  The conjuncts show the guard is identically false, a line with
non-numeric mandatory fields being accepted, a wrong-count line being rejected,
and a well-formed line being returned converted. -/
theorem c4_validate_dead_guard :
    (∀ v : PyVal, validateGuard v = false) ∧
      validate ["a", "t", "b", "1", "1", "1", "1", "1"] =
        .ok [.vbool false, .vstr "t", .vbool false, .vfloat 1, .vfloat 1, .vfloat 1,
          .vfloat 1, .vfloat 1] ∧
      validate ["1", "t", "2", "x", "1", "1", "1", "1"] =
        .ok [.vint 1, .vstr "t", .vint 2, .vbool false, .vfloat 1, .vfloat 1, .vfloat 1,
          .vfloat 1] ∧
      validate ["1", "2"] = .error "tokens length is not 8" ∧
      validate ["1", "t", "2", "4", "1", "0", "1", "3"] =
        .ok [.vint 1, .vstr "t", .vint 2, .vfloat 4, .vfloat 1, .vfloat 0, .vfloat 1,
          .vfloat 3] := by
  refine ⟨fun v => ?_, rfl, rfl, rfl, rfl⟩
  cases v <;> simp [validateGuard, pyEq, pyNum, py0]

/-- C5 (code_bug): the node universe of `aggregate_dates` keeps only cells whose
mapping list has MORE than one entry (`len(censusBlocks) > 1`), so a cell with
exactly one census-block entry is excluded from the graph and its extract
entries are discarded, although the code's own comment says cells covered at
least partially by a census block are kept. -/
theorem c5_node_universe :
    milanNodesOf [(5, [[("SEZ2011", "1")]])] = [] ∧
      milanNodesOf [(5, [[("A", "1")], [("B", "2")]])] = [5] ∧
      aggregate_dates [(5, [[("SEZ2011", "1")]])] [[(5, [(5, 3)])]] = ⟨[], []⟩ :=
  ⟨rfl, rfl, rfl⟩

/-- C1, counterexample: the contribution of `create_census_blocks_graph` does
not equal the source edge weight times the from-cell's own overlap share
(`milanAreaPercentage`, intersection over cell area) times the to-block's share:
with a from-entry whose cell-side share is 1 but block-side share is 1/2, the
code contributes 1/2 where the claim predicts 1. -/
theorem c1_counterexample :
    ¬ (contribWeight 1 ⟨10, 1 / 2, 1⟩ ⟨2, 1, 1⟩ =
        1 * (⟨10, 1 / 2, 1⟩ : CellFromEntry).milanAreaPercentage *
          (⟨2, 1, 1⟩ : BlockToEntry).censusAreaPercentage) := by
  norm_num [contribWeight]

/-- C1 (corrected): every contribution equals the source edge weight times the
census-block-side percentage of the from-pair (`cellFrom['censusAreaPercentage']`,
intersection over the from-block's area) times the census-block-side percentage
of the to-pair; the cell-side `milanAreaPercentage` values (here `q1`, `q2`) do
not enter.  Shown end to end on a one-edge configuration: the final block edge
carries `w * p1 * p2` after the double visit and the halving. -/
theorem c1_block_contribution (w p1 q1 p2 q2 : ℚ) :
    create_census_blocks_graph [(1, [⟨10, p1, q1⟩]), (2, [⟨20, p2, q2⟩])] [((10, 20), w)]
        [(10, [⟨1, p1, q1⟩]), (20, [⟨2, p2, q2⟩])] =
      ⟨[1, 2], [((1, 2), w * p1 * p2)]⟩ := by
  simp [create_census_blocks_graph, accumulateBlocks, halveEdges, addNode, addWeight,
    incidentEdges, mapLookup, contribWeight, edgeLookup]
  ring

/-- C2, counterexample: one edge of weight 1 between two cells, each 100%
covered by its own single block (`milanAreaPercentage = 1`), redistributes to a
single block edge of weight 1/4, not 1, because the code multiplies by the
block-side shares (here 1/2 each) instead of the cell-side shares. -/
theorem c2_counterexample :
    create_census_blocks_graph [(1, [⟨10, 1 / 2, 1⟩]), (2, [⟨20, 1 / 2, 1⟩])] [((10, 20), 1)]
        [(10, [⟨1, 1 / 2, 1⟩]), (20, [⟨2, 1 / 2, 1⟩])] =
      ⟨[1, 2], [((1, 2), 1 / 4)]⟩ ∧ ((1 : ℚ) / 4 ≠ 1) := by
  constructor
  · simp [create_census_blocks_graph, accumulateBlocks, halveEdges, addNode, addWeight,
      incidentEdges, mapLookup, contribWeight, edgeLookup]
    norm_num
  · norm_num

/-- C2 (corrected): when each cell and its block fully overlap each other (both
stored percentages equal 1), the one source edge of weight `w` is visited once
from each endpoint, both contributions `w * 1 * 1` are summed onto the same
block edge, and the single final halving yields exactly one edge of weight `w`. -/
theorem c2_weight_conservation (w : ℚ) :
    (accumulateBlocks [(1, [⟨10, 1, 1⟩]), (2, [⟨20, 1, 1⟩])] [((10, 20), w)]
        [(10, [⟨1, 1, 1⟩]), (20, [⟨2, 1, 1⟩])]).edges =
      [((1, 2), w * 1 * 1 + w * 1 * 1)] ∧
    create_census_blocks_graph [(1, [⟨10, 1, 1⟩]), (2, [⟨20, 1, 1⟩])] [((10, 20), w)]
        [(10, [⟨1, 1, 1⟩]), (20, [⟨2, 1, 1⟩])] =
      ⟨[1, 2], [((1, 2), w)]⟩ := by
  constructor
  · simp [accumulateBlocks, addNode, addWeight, incidentEdges, mapLookup, contribWeight,
      edgeLookup]
  · simp [create_census_blocks_graph, accumulateBlocks, halveEdges, addNode, addWeight,
      incidentEdges, mapLookup, contribWeight, edgeLookup]

/-- C3, counterexample: the contribution of `get_block_graph` is not the edge
weight times the cell-side overlap share (`milanAreaPercentage`): with a
from-entry whose cell-side share is 1 but block-side share is 1/2, the code
contributes 1/2 where the claim predicts 1. -/
theorem c3_counterexample :
    ¬ (contribCountry 1 ⟨"10", 1 / 2, 1⟩ =
        1 * (⟨"10", 1 / 2, 1⟩ : CellFromEntryC).milanAreaPercentage) := by
  norm_num [contribCountry]

/-- C3 (corrected): each (block, country) contribution equals the cell-to-country
edge weight times only the block-side percentage of the overlap record
(`cellFrom['censusAreaPercentage']`, intersection over the block's own area); no
target-side percentage exists for country nodes and no divide-by-2 pass runs, so
the single visit leaves the full `w * p` on the edge. -/
theorem c3_country_contribution (w p q : ℚ) :
    accumulateCountries [(1, [⟨"10", p, q⟩])] [((MCNode.m "10", MCNode.c "39"), w)] =
      .ok ⟨[BCNode.blk 1, BCNode.ctry "39"], [((BCNode.blk 1, BCNode.ctry "39"), w * p)]⟩ := by
  simp [accumulateCountries, foldE, countryEdgeStep, incidentEdges, addNode, addWeight,
    contribCountry, mapLookup]

/-- Setting a key makes it readable back. -/
theorem mapLookup_setAttr_self (a : List (String × Val)) (k : String) (v : Val) :
    mapLookup (setAttr a k v) k = some v := by
  induction a with
  | nil => simp [setAttr, mapLookup]
  | cons h t ih =>
    obtain ⟨k0, v0⟩ := h
    by_cases hk : k0 = k
    · simp [setAttr, hk, mapLookup]
    · simp [setAttr, hk, mapLookup, ih]

/-- Setting a key leaves other keys unchanged. -/
theorem mapLookup_setAttr_ne (a : List (String × Val)) (k k' : String) (v : Val)
    (h : k' ≠ k) : mapLookup (setAttr a k v) k' = mapLookup a k' := by
  induction a with
  | nil =>
    simp only [setAttr, mapLookup]
    rw [if_neg (Ne.symm h)]
  | cons hd t ih =>
    obtain ⟨k0, v0⟩ := hd
    simp only [setAttr]
    by_cases hk : k0 = k
    · rw [if_pos hk]
      subst hk
      simp only [mapLookup]
      rw [if_neg (Ne.symm h), if_neg (Ne.symm h)]
    · rw [if_neg hk]
      simp only [mapLookup]
      by_cases hk' : k0 = k'
      · rw [if_pos hk', if_pos hk']
      · rw [if_neg hk', if_neg hk', ih]

/-- Setting an existing key preserves the key list. -/
theorem setAttr_keys_of_mem (a : List (String × Val)) (k : String) (v : Val)
    (h : k ∈ a.map (·.1)) : (setAttr a k v).map (·.1) = a.map (·.1) := by
  induction a with
  | nil => simp at h
  | cons hd t ih =>
    obtain ⟨k0, v0⟩ := hd
    by_cases hk : k0 = k
    · simp [setAttr, hk]
    · have ht : k ∈ t.map (·.1) := by
        rcases List.mem_cons.mp h with he | ht
        · exact absurd he.symm hk
        · exact ht
      simp [setAttr, hk, ih ht]

/-- Setting an absent key appends it. -/
theorem setAttr_of_not_mem (a : List (String × Val)) (k : String) (v : Val)
    (h : k ∉ a.map (·.1)) : setAttr a k v = a ++ [(k, v)] := by
  induction a with
  | nil => simp [setAttr]
  | cons hd t ih =>
    obtain ⟨k0, v0⟩ := hd
    have h1 : ¬k0 = k := fun he => h (by simp [he])
    have h2 : k ∉ t.map (·.1) := fun ht => h (by simp [ht])
    simp [setAttr, h1, ih h2]

/-- Copying a record with distinct keys, none of which is present yet, appends
the record. -/
theorem copyAttrs_of_disjoint (rec : List (String × Val)) :
    ∀ acc : List (String × Val), (rec.map (·.1)).Nodup →
      (∀ k ∈ rec.map (·.1), k ∉ acc.map (·.1)) → copyAttrs acc rec = acc ++ rec := by
  induction rec with
  | nil => intro acc _ _; simp [copyAttrs]
  | cons hd t ih =>
    intro acc hnd hdisj
    obtain ⟨k0, v0⟩ := hd
    have hset : setAttr acc k0 v0 = acc ++ [(k0, v0)] :=
      setAttr_of_not_mem acc k0 v0 (hdisj k0 (by simp))
    rw [List.map_cons, List.nodup_cons] at hnd
    have hdisj' : ∀ k ∈ t.map (·.1), k ∉ (acc ++ [(k0, v0)]).map (·.1) := by
      intro k hk
      simp only [List.map_append, List.mem_append]
      rintro (hacc | hsing)
      · exact hdisj k (by simp [hk]) hacc
      · simp at hsing
        exact hnd.1 (hsing ▸ hk)
    have hstep : copyAttrs acc ((k0, v0) :: t) = copyAttrs (acc ++ [(k0, v0)]) t := by
      simp [copyAttrs, hset]
    rw [hstep, ih (acc ++ [(k0, v0)]) hnd.2 hdisj']
    simp

/-- Copying a record with distinct keys onto an empty node reproduces the record. -/
theorem copyAttrs_nil (rec : List (String × Val)) (h : (rec.map (·.1)).Nodup) :
    copyAttrs [] rec = rec := by
  have := copyAttrs_of_disjoint rec [] h (by simp)
  simpa using this

/-- Looking up any key of the all-`None` fill map yields `None`. -/
theorem mapLookup_constNone (ks : List String) (k : String) :
    mapLookup (ks.map fun k0 => (k0, Val.vnone)) k =
      if k ∈ ks then some Val.vnone else none := by
  induction ks with
  | nil => simp [mapLookup]
  | cons hd t ih =>
    by_cases hk : hd = k
    · simp [mapLookup, hk]
    · simp [mapLookup, hk, ih, Ne.symm hk]

/-- A key present in the key list is found by lookup. -/
theorem mapLookup_of_mem_keys (a : List (String × Val)) (k : String)
    (h : k ∈ a.map (·.1)) : ∃ v, mapLookup a k = some v := by
  induction a with
  | nil => simp at h
  | cons hd t ih =>
    obtain ⟨k0, v0⟩ := hd
    by_cases hk : k0 = k
    · exact ⟨v0, by simp [mapLookup, hk]⟩
    · have ht : k ∈ t.map (·.1) := by
        rcases List.mem_cons.mp h with he | ht
        · exact absurd he.symm hk
        · exact ht
      obtain ⟨v, hv⟩ := ih ht
      exact ⟨v, by simp [mapLookup, hk, hv]⟩

/-- C7 (confirmed): a region or category with no matching external record is
never fatal.  First conjunct (`add_census_attributes`): a block node absent from
the census table is reported in the missing set and the node is still present in
the returned graph.  Second conjunct (the annotation loop of `get_block_graph`):
when every country node's code is a key of the name table, the loop completes
without raising, and every country node is produced with `CountryName` set to
the table's value — including `None` when the code has no display name. -/
theorem c7_missing_reference_confirmed :
    (∀ (g : List (ℤ × List (String × Val))) (tbl : List (String × List (String × Val)))
        (n : ℤ) (attrs : List (String × Val)),
        (n, attrs) ∈ g → mapLookup tbl (toString n) = none →
          toString n ∈ (add_census_attributes g tbl).2 ∧
            (n, attrs) ∈ (add_census_attributes g tbl).1) ∧
      (∀ (ca : List (String × List (String × Val))) (cm : List (String × Val))
          (keys : List String) (g : List (BCNode × List (String × Val))),
          (∀ code attrs, (BCNode.ctry code, attrs) ∈ g → (mapLookup cm code).isSome) →
          ∃ res, annotateCountries ca cm keys g = .ok res ∧
            ∀ code attrs, (BCNode.ctry code, attrs) ∈ g →
              ∃ name, mapLookup cm code = some name ∧
                (BCNode.ctry code,
                    setAttr (setAttr attrs "CountryCode" (Val.vstr code)) "CountryName" name) ∈
                  res.1) := by
  constructor
  · intro g tbl n attrs hmem hnone
    constructor
    · unfold add_census_attributes
      exact List.mem_map.mpr
        ⟨(n, attrs), List.mem_filter.mpr ⟨hmem, by simp [hnone]⟩, rfl⟩
    · unfold add_census_attributes
      refine List.mem_map.mpr ⟨(n, attrs), hmem, ?_⟩
      simp [hnone]
  · intro ca cm keys g
    induction g generalizing keys with
    | nil =>
      intro _
      exact ⟨([], keys), rfl, by simp⟩
    | cons node rest ih =>
      intro hall
      obtain ⟨nid, nattrs⟩ := node
      cases nid with
      | ctry code0 =>
        have hsome : (mapLookup cm code0).isSome := hall code0 nattrs (by simp)
        obtain ⟨name0, hname0⟩ := Option.isSome_iff_exists.mp hsome
        obtain ⟨res', hres', hmem'⟩ :=
          ih keys fun code attrs hmem => hall code attrs (List.mem_cons_of_mem _ hmem)
        refine ⟨((BCNode.ctry code0,
            setAttr (setAttr nattrs "CountryCode" (Val.vstr code0)) "CountryName" name0) ::
              res'.1, res'.2), ?_, ?_⟩
        · simp only [annotateCountries, hname0]
          rw [hres']
          rfl
        · intro code attrs hmem
          rcases List.mem_cons.mp hmem with heq | hmem2
          · simp only [Prod.mk.injEq, BCNode.ctry.injEq] at heq
            obtain ⟨h1, h2⟩ := heq
            subst h1; subst h2
            exact ⟨name0, hname0, by simp⟩
          · obtain ⟨name, hn, hm⟩ := hmem' code attrs hmem2
            exact ⟨name, hn, by simp [hm]⟩
      | blk z =>
        cases hca : mapLookup ca (toString z) with
        | none =>
          obtain ⟨res', hres', hmem'⟩ :=
            ih keys fun code attrs hmem => hall code attrs (List.mem_cons_of_mem _ hmem)
          refine ⟨((BCNode.blk z, nattrs) :: res'.1, res'.2), ?_, ?_⟩
          · simp only [annotateCountries, hca]
            rw [hres']
            rfl
          · intro code attrs hmem
            rcases List.mem_cons.mp hmem with heq | hmem2
            · simp at heq
            · obtain ⟨name, hn, hm⟩ := hmem' code attrs hmem2
              exact ⟨name, hn, by simp [hm]⟩
        | some rec =>
          obtain ⟨res', hres', hmem'⟩ :=
            ih (if keys.isEmpty then rec.map (·.1) else keys)
              fun code attrs hmem => hall code attrs (List.mem_cons_of_mem _ hmem)
          refine ⟨((BCNode.blk z, copyAttrs nattrs rec) :: res'.1, res'.2), ?_, ?_⟩
          · simp only [annotateCountries, hca]
            rw [hres']
            rfl
          · intro code attrs hmem
            rcases List.mem_cons.mp hmem with heq | hmem2
            · simp at heq
            · obtain ⟨name, hn, hm⟩ := hmem' code attrs hmem2
              exact ⟨name, hn, by simp [hm]⟩

/-- Witness for C7: node 5 has no census record, is reported missing and kept;
country node 39 has a `None` display name and is annotated without raising. -/
theorem c7_witness :
    (((5 : ℤ), ([] : List (String × Val))) ∈ [((5 : ℤ), ([] : List (String × Val)))] ∧
        mapLookup ([] : List (String × List (String × Val))) (toString (5 : ℤ)) = none ∧
        toString (5 : ℤ) ∈
          (add_census_attributes [((5 : ℤ), ([] : List (String × Val)))] []).2 ∧
        ((5 : ℤ), ([] : List (String × Val))) ∈
          (add_census_attributes [((5 : ℤ), ([] : List (String × Val)))] []).1) ∧
      ∃ res, annotateCountries [] [("39", Val.vnone)] []
            [(BCNode.ctry "39", ([] : List (String × Val)))] = .ok res ∧
          ∀ code attrs,
            (BCNode.ctry code, attrs) ∈ [(BCNode.ctry "39", ([] : List (String × Val)))] →
            ∃ name, mapLookup [("39", Val.vnone)] code = some name ∧
              (BCNode.ctry code,
                  setAttr (setAttr attrs "CountryCode" (Val.vstr code)) "CountryName" name) ∈
                res.1 := by
  constructor
  · have h := c7_missing_reference_confirmed.1 [((5 : ℤ), ([] : List (String × Val)))] []
      5 [] (by simp) rfl
    exact ⟨by simp, rfl, h.1, h.2⟩
  · exact c7_missing_reference_confirmed.2 [] [("39", Val.vnone)] []
      [(BCNode.ctry "39", ([] : List (String × Val)))] (by simp [mapLookup])

/-- A successful lookup comes from a bound pair of the list. -/
theorem mapLookup_mem {α β : Type} [DecidableEq α] (l : List (α × β)) (k : α) (v : β)
    (h : mapLookup l k = some v) : (k, v) ∈ l := by
  induction l with
  | nil => simp [mapLookup] at h
  | cons hd t ih =>
    obtain ⟨k0, v0⟩ := hd
    by_cases hk : k0 = k
    · subst hk
      simp [mapLookup] at h
      simp [h]
    · simp [mapLookup, hk] at h
      exact List.mem_cons_of_mem _ (ih h)

/-- The keys of the all-`None` fill map are the canonical keys. -/
theorem constNone_keys (ks : List String) :
    (ks.map fun k0 => (k0, Val.vnone)).map (·.1) = ks := by
  induction ks with
  | nil => rfl
  | cons hd t ih => simp [ih]

/-- Filling an attribute-less node: every canonical key is set to `None`, after
which `SEZ2011` is replaced by the node's own identifier. -/
theorem fillNode_empty (ks : List String) (hsez : "SEZ2011" ∈ ks) (n : ℤ) :
    fillNode ks (n, []) =
      .ok (n, setAttr (ks.map fun k0 => (k0, Val.vnone)) "SEZ2011" (Val.vint n)) := by
  unfold fillNode
  simp only [List.isEmpty_nil, if_pos]
  rw [mapLookup_constNone ks "SEZ2011", if_pos hsez]
  simp

/-- Running the hole-filling pass over nodes that are either attribute-less or
already carry the canonical key set succeeds and yields the claimed shape. -/
theorem mapE_fillNode (ks : List String) (hnd : ks.Nodup) (hsez : "SEZ2011" ∈ ks) :
    ∀ l : List (ℤ × List (String × Val)),
      (∀ p ∈ l, p.2 = [] ∨ p.2.map (·.1) = ks) →
      ∃ l2, mapE (fillNode ks) l = .ok l2 ∧
        (∀ q ∈ l2, q.2.map (·.1) = ks) ∧
        (∀ q ∈ l2, ∃ v, mapLookup q.2 "SEZ2011" = some v ∧ v ≠ Val.vnone) ∧
        (∀ n : ℤ, (n, ([] : List (String × Val))) ∈ l →
          ∃ attrs, (n, attrs) ∈ l2 ∧ mapLookup attrs "SEZ2011" = some (Val.vint n) ∧
            ∀ k v, mapLookup attrs k = some v → k ≠ "SEZ2011" → v = Val.vnone) := by
  have hksne : ks ≠ [] := fun he => by simp [he] at hsez
  intro l
  induction l with
  | nil => exact fun _ => ⟨[], rfl, by simp, by simp, by simp⟩
  | cons p rest ih =>
    intro hshape
    obtain ⟨l2, hl2, hkeys2, hsez2, hfill2⟩ :=
      ih fun q hq => hshape q (List.mem_cons_of_mem _ hq)
    obtain ⟨n, attrs0⟩ := p
    rcases hshape (n, attrs0) (by simp) with hempty | hks0
    · simp only at hempty
      subst hempty
      set filled := setAttr (ks.map fun k0 => (k0, Val.vnone)) "SEZ2011" (Val.vint n) with hfdef
      have hstep : fillNode ks (n, []) = .ok (n, filled) := fillNode_empty ks hsez n
      refine ⟨(n, filled) :: l2, ?_, ?_, ?_, ?_⟩
      · simp [mapE, hstep, hl2]
      · intro q hq
        rcases List.mem_cons.mp hq with he | hq2
        · subst he
          simp only
          rw [hfdef, setAttr_keys_of_mem _ _ _ (by rw [constNone_keys]; exact hsez)]
          exact constNone_keys ks
        · exact hkeys2 q hq2
      · intro q hq
        rcases List.mem_cons.mp hq with he | hq2
        · subst he
          exact ⟨Val.vint n, by rw [hfdef]; exact mapLookup_setAttr_self _ _ _, by simp⟩
        · exact hsez2 q hq2
      · intro n' hn'
        rcases List.mem_cons.mp hn' with he | hn2
        · simp only [Prod.mk.injEq] at he
          obtain ⟨he1, _⟩ := he
          subst he1
          refine ⟨filled, by simp, by rw [hfdef]; exact mapLookup_setAttr_self _ _ _, ?_⟩
          intro k v hkv hkne
          rw [hfdef, mapLookup_setAttr_ne _ _ _ _ hkne, mapLookup_constNone] at hkv
          by_cases hkmem : k ∈ ks
          · rw [if_pos hkmem] at hkv
            exact (Option.some_inj.mp hkv).symm
          · rw [if_neg hkmem] at hkv
            cases hkv
        · obtain ⟨attrs, hmem, hlk, hoth⟩ := hfill2 n' hn2
          exact ⟨attrs, List.mem_cons_of_mem _ hmem, hlk, hoth⟩
    · have hne0 : attrs0 ≠ [] := fun he => hksne (by rw [← hks0, he]; rfl)
      obtain ⟨v0, hv0⟩ := mapLookup_of_mem_keys attrs0 "SEZ2011" (hks0 ▸ hsez)
      have hisEmpty : attrs0.isEmpty = false := by
        cases attrs0 with
        | nil => exact absurd rfl hne0
        | cons a b => rfl
      by_cases hvn : v0 = Val.vnone
      · subst hvn
        have hstep : fillNode ks (n, attrs0) =
            .ok (n, setAttr attrs0 "SEZ2011" (Val.vint n)) := by
          unfold fillNode
          simp only [hisEmpty, Bool.false_eq_true, if_false, hv0]
          simp
        refine ⟨(n, setAttr attrs0 "SEZ2011" (Val.vint n)) :: l2, ?_, ?_, ?_, ?_⟩
        · simp [mapE, hstep, hl2]
        · intro q hq
          rcases List.mem_cons.mp hq with he | hq2
          · subst he
            simp only
            rw [setAttr_keys_of_mem _ _ _ (hks0 ▸ hsez)]
            exact hks0
          · exact hkeys2 q hq2
        · intro q hq
          rcases List.mem_cons.mp hq with he | hq2
          · subst he
            exact ⟨Val.vint n, mapLookup_setAttr_self _ _ _, by simp⟩
          · exact hsez2 q hq2
        · intro n' hn'
          rcases List.mem_cons.mp hn' with he | hn2
          · simp only [Prod.mk.injEq] at he
            exact absurd he.2.symm hne0
          · obtain ⟨attrs, hmem, hlk, hoth⟩ := hfill2 n' hn2
            exact ⟨attrs, List.mem_cons_of_mem _ hmem, hlk, hoth⟩
      · have hstep : fillNode ks (n, attrs0) = .ok (n, attrs0) := by
          unfold fillNode
          simp only [hisEmpty, Bool.false_eq_true, if_false, hv0]
          simp [hvn]
        refine ⟨(n, attrs0) :: l2, ?_, ?_, ?_, ?_⟩
        · simp [mapE, hstep, hl2]
        · intro q hq
          rcases List.mem_cons.mp hq with he | hq2
          · subst he
            exact hks0
          · exact hkeys2 q hq2
        · intro q hq
          rcases List.mem_cons.mp hq with he | hq2
          · subst he
            exact ⟨v0, hv0, hvn⟩
          · exact hsez2 q hq2
        · intro n' hn'
          rcases List.mem_cons.mp hn' with he | hn2
          · simp only [Prod.mk.injEq] at he
            exact absurd he.2.symm hne0
          · obtain ⟨attrs, hmem, hlk, hoth⟩ := hfill2 n' hn2
            exact ⟨attrs, List.mem_cons_of_mem _ hmem, hlk, hoth⟩

/-- The closing sanity check passes when every node carries the same number of
attributes. -/
theorem lengthCheck_ok (l2 : List (ℤ × List (String × Val))) (m : ℕ)
    (h : ∀ q ∈ l2, q.2.length = m) : lengthCheck l2 = .ok () := by
  cases l2 with
  | nil => rfl
  | cons hd t =>
    have hall : (t.all fun p => decide (p.2.length = hd.2.length)) = true :=
      List.all_eq_true.mpr fun p hp =>
        decide_eq_true ((h p (List.mem_cons_of_mem _ hp)).trans (h hd (by simp)).symm)
    simp [lengthCheck, hall]

/-- After the merge, the first node with a non-empty attribute set carries the
canonical keys. -/
theorem firstAttrKeys_merge (tbl : List (String × List (String × Val))) (ks : List String)
    (hks : ∀ q ∈ tbl, q.2.map (·.1) = ks) (hnd : ks.Nodup) (hksne : ks ≠ []) :
    ∀ g0 : List (ℤ × List (String × Val)), (∀ p ∈ g0, p.2 = []) →
      (∃ p ∈ g0, (mapLookup tbl (toString p.1)).isSome) →
      firstAttrKeys (add_census_attributes g0 tbl).1 = ks := by
  intro g0
  induction g0 with
  | nil => rintro _ ⟨p, hp, _⟩; simp at hp
  | cons p rest ih =>
    intro hbare hex
    obtain ⟨n, attrs0⟩ := p
    have h0 : attrs0 = [] := hbare (n, attrs0) (by simp)
    subst h0
    cases hlk : mapLookup tbl (toString n) with
    | some rec =>
      have hrecmem : (toString n, rec) ∈ tbl := mapLookup_mem tbl _ rec hlk
      have hreckeys : rec.map (·.1) = ks := hks (toString n, rec) hrecmem
      have hrecnd : (rec.map (·.1)).Nodup := hreckeys ▸ hnd
      have hrecne : rec ≠ [] := fun he => hksne (by rw [← hreckeys, he]; rfl)
      have hcopy : copyAttrs ([] : List (String × Val)) rec = rec := copyAttrs_nil rec hrecnd
      unfold add_census_attributes firstAttrKeys
      simp only [List.map_cons, hlk, hcopy]
      rw [List.find?_cons_of_pos]
      · exact hreckeys
      · simp only
        cases rec with
        | nil => exact absurd rfl hrecne
        | cons a b => rfl
    | none =>
      have hex2 : ∃ q ∈ rest, (mapLookup tbl (toString q.1)).isSome := by
        obtain ⟨q, hq, hqs⟩ := hex
        rcases List.mem_cons.mp hq with he | hq2
        · subst he
          simp only at hqs
          rw [hlk] at hqs
          cases hqs
        · exact ⟨q, hq2, hqs⟩
      have hrest := ih (fun q hq => hbare q (List.mem_cons_of_mem _ hq)) hex2
      unfold add_census_attributes firstAttrKeys at hrest ⊢
      simp only [List.map_cons, hlk]
      rw [List.find?_cons_of_neg]
      · exact hrest
      · simp

/-- C8 (confirmed): starting from a bare block graph merged against a census
table with a uniform key schema containing `SEZ2011`, and at least one node
having a record, the hole-filling pass succeeds; afterwards every node carries
the identical canonical attribute key set, every node's `SEZ2011` is non-null,
and every node that had no record has `SEZ2011` equal to its own identifier and
every other attribute equal to null. -/
theorem c8_attribute_uniformity (g0 : List (ℤ × List (String × Val)))
    (tbl : List (String × List (String × Val))) (ks : List String)
    (hbare : ∀ p ∈ g0, p.2 = []) (hks : ∀ q ∈ tbl, q.2.map (·.1) = ks)
    (hsez : "SEZ2011" ∈ ks) (hnd : ks.Nodup)
    (hex : ∃ p ∈ g0, (mapLookup tbl (toString p.1)).isSome) :
    ∃ g2, census_block_graph_fill_in_holes (add_census_attributes g0 tbl).1 = .ok g2 ∧
      (∀ p ∈ g2, p.2.map (·.1) = ks) ∧
      (∀ p ∈ g2, ∃ v, mapLookup p.2 "SEZ2011" = some v ∧ v ≠ Val.vnone) ∧
      (∀ (n : ℤ) (attrs0 : List (String × Val)), (n, attrs0) ∈ g0 →
        mapLookup tbl (toString n) = none →
        ∃ attrs, (n, attrs) ∈ g2 ∧ mapLookup attrs "SEZ2011" = some (Val.vint n) ∧
          ∀ k v, mapLookup attrs k = some v → k ≠ "SEZ2011" → v = Val.vnone) := by
  have hksne : ks ≠ [] := fun he => by simp [he] at hsez
  have hfk : firstAttrKeys (add_census_attributes g0 tbl).1 = ks :=
    firstAttrKeys_merge tbl ks hks hnd hksne g0 hbare hex
  have hshape : ∀ p ∈ (add_census_attributes g0 tbl).1, p.2 = [] ∨ p.2.map (·.1) = ks := by
    intro p hp
    unfold add_census_attributes at hp
    simp only at hp
    obtain ⟨p0, hp0, hfp⟩ := List.mem_map.mp hp
    have h0 : p0.2 = [] := hbare p0 hp0
    cases hlk : mapLookup tbl (toString p0.1) with
    | none =>
      left
      rw [hlk] at hfp
      rw [← hfp, h0]
    | some rec =>
      right
      have hrecmem : (toString p0.1, rec) ∈ tbl := mapLookup_mem tbl _ rec hlk
      have hreckeys : rec.map (·.1) = ks := hks _ hrecmem
      rw [hlk] at hfp
      rw [← hfp]
      simp only
      rw [h0, copyAttrs_nil rec (hreckeys ▸ hnd)]
      exact hreckeys
  obtain ⟨l2, hl2, hkeys2, hsez2, hfill2⟩ :=
    mapE_fillNode ks hnd hsez (add_census_attributes g0 tbl).1 hshape
  have hlen : lengthCheck l2 = .ok () :=
    lengthCheck_ok l2 ks.length fun q hq => by
      rw [← hkeys2 q hq]; exact (List.length_map _ _).symm
  refine ⟨l2, ?_, hkeys2, hsez2, ?_⟩
  · unfold census_block_graph_fill_in_holes
    rw [hfk, hl2]
    simp [hlen]
  · intro n attrs0 hmem0 hnone
    have h0 : attrs0 = [] := hbare (n, attrs0) hmem0
    subst h0
    have hg1 : (n, ([] : List (String × Val))) ∈ (add_census_attributes g0 tbl).1 := by
      unfold add_census_attributes
      refine List.mem_map.mpr ⟨(n, []), hmem0, ?_⟩
      simp [hnone]
    exact hfill2 n hg1

/-- Witness for C8: two bare nodes, one census record; node 2 is hole-filled
with a null `POP` and its own id as `SEZ2011`. -/
theorem c8_witness :
    (∀ p ∈ [((1 : ℤ), ([] : List (String × Val))), ((2 : ℤ), ([] : List (String × Val)))],
        p.2 = []) ∧
      ("SEZ2011" ∈ ["SEZ2011", "POP"]) ∧
      ∃ g2, census_block_graph_fill_in_holes
            (add_census_attributes
              [((1 : ℤ), ([] : List (String × Val))), ((2 : ℤ), ([] : List (String × Val)))]
              [("1", [("SEZ2011", Val.vint 1), ("POP", Val.vint 7)])]).1 = .ok g2 ∧
          (∀ p ∈ g2, p.2.map (·.1) = ["SEZ2011", "POP"]) ∧
          (∀ p ∈ g2, ∃ v, mapLookup p.2 "SEZ2011" = some v ∧ v ≠ Val.vnone) ∧
          (∀ (n : ℤ) (attrs0 : List (String × Val)),
            (n, attrs0) ∈
              [((1 : ℤ), ([] : List (String × Val))), ((2 : ℤ), ([] : List (String × Val)))] →
            mapLookup [("1", [("SEZ2011", Val.vint 1), ("POP", Val.vint 7)])] (toString n) =
              none →
            ∃ attrs, (n, attrs) ∈ g2 ∧ mapLookup attrs "SEZ2011" = some (Val.vint n) ∧
              ∀ k v, mapLookup attrs k = some v → k ≠ "SEZ2011" → v = Val.vnone) :=
  ⟨by simp, by simp,
    c8_attribute_uniformity
      [((1 : ℤ), ([] : List (String × Val))), ((2 : ℤ), ([] : List (String × Val)))]
      [("1", [("SEZ2011", Val.vint 1), ("POP", Val.vint 7)])] ["SEZ2011", "POP"]
      (by simp) (by simp) (by simp) (by simp)
      ⟨(1, []), by simp, by decide⟩⟩

/-- Adding weight onto a pair makes that pair's weight readable back, summed
with whatever was there (0 when the edge was absent). -/
theorem edgeLookup_addWeight_same {α : Type} [DecidableEq α]
    (es : List ((α × α) × ℚ)) (u v : α) (w : ℚ) :
    edgeLookup (addWeight es u v w) u v = some ((edgeLookup es u v).getD 0 + w) := by
  induction es with
  | nil => simp [addWeight, edgeLookup]
  | cons hd t ih =>
    obtain ⟨p, w0⟩ := hd
    by_cases hc : (p.1 = u ∧ p.2 = v) ∨ (p.1 = v ∧ p.2 = u)
    · simp [addWeight, edgeLookup, hc]
    · simp [addWeight, edgeLookup, hc, ih]

/-- Adding weight onto one unordered pair leaves every other pair's weight
unchanged. -/
theorem edgeLookup_addWeight_other {α : Type} [DecidableEq α]
    (es : List ((α × α) × ℚ)) (u v u' v' : α) (w : ℚ)
    (h : ¬((u' = u ∧ v' = v) ∨ (u' = v ∧ v' = u))) :
    edgeLookup (addWeight es u' v' w) u v = edgeLookup es u v := by
  induction es with
  | nil =>
    simp only [addWeight, edgeLookup]
    rw [if_neg]
    intro hc
    rcases hc with ⟨h1, h2⟩ | ⟨h1, h2⟩
    · exact h (Or.inl ⟨h1, h2⟩)
    · exact h (Or.inr ⟨h1, h2⟩)
  | cons hd t ih =>
    obtain ⟨p, w0⟩ := hd
    by_cases hc' : (p.1 = u' ∧ p.2 = v') ∨ (p.1 = v' ∧ p.2 = u')
    · have hcnot : ¬((p.1 = u ∧ p.2 = v) ∨ (p.1 = v ∧ p.2 = u)) := by
        intro hc
        rcases hc' with ⟨h1, h2⟩ | ⟨h1, h2⟩ <;> rcases hc with ⟨h3, h4⟩ | ⟨h3, h4⟩
        · exact h (Or.inl ⟨h1.symm.trans h3, h2.symm.trans h4⟩)
        · exact h (Or.inr ⟨h1.symm.trans h3, h2.symm.trans h4⟩)
        · exact h (Or.inr ⟨h2.symm.trans h4, h1.symm.trans h3⟩)
        · exact h (Or.inl ⟨h2.symm.trans h4, h1.symm.trans h3⟩)
      simp [addWeight, edgeLookup, hc', hcnot]
    · simp [addWeight, edgeLookup, hc', ih]

/-- One cell's inner accumulation loop does not touch edges of other (cell,
code) pairs. -/
theorem innerFold_preserve (f : ConnectDict → ℚ) (cell cellT codeT : String)
    (inner : List (String × ConnectDict))
    (hne : ∀ ce ∈ inner, ¬(cell = cellT ∧ ce.1 = codeT)) :
    ∀ es, edgeLookup
        (inner.foldl (fun es2 ce => addWeight es2 (MCNode.m cell) (MCNode.c ce.1) (f ce.2)) es)
        (MCNode.m cellT) (MCNode.c codeT) =
      edgeLookup es (MCNode.m cellT) (MCNode.c codeT) := by
  induction inner with
  | nil => intro es; rfl
  | cons ce rest ih =>
    intro es
    rw [List.foldl_cons, ih fun x hx => hne x (List.mem_cons_of_mem _ hx)]
    apply edgeLookup_addWeight_other
    intro hc
    rcases hc with ⟨h1, h2⟩ | ⟨h1, h2⟩
    · injection h1 with h1'
      injection h2 with h2'
      exact hne ce (by simp) ⟨h1', h2'⟩
    · exact MCNode.noConfusion h1

/-- Accumulating one cell's inner list puts exactly the connection's weight on a
fresh (cell, code) edge, once, provided the codes are distinct. -/
theorem innerFold_hit (f : ConnectDict → ℚ) (cell : String)
    (inner : List (String × ConnectDict)) (codeT : String) (dT : ConnectDict)
    (hnd : (inner.map (·.1)).Nodup) (hmem : (codeT, dT) ∈ inner) :
    ∀ es, edgeLookup es (MCNode.m cell) (MCNode.c codeT) = none →
      edgeLookup
          (inner.foldl (fun es2 ce => addWeight es2 (MCNode.m cell) (MCNode.c ce.1) (f ce.2)) es)
          (MCNode.m cell) (MCNode.c codeT) =
        some (f dT) := by
  induction inner with
  | nil => simp at hmem
  | cons ce rest ih =>
    intro es hnone
    obtain ⟨c0, d0⟩ := ce
    rw [List.map_cons, List.nodup_cons] at hnd
    rcases List.mem_cons.mp hmem with heq | hmem2
    · simp only [Prod.mk.injEq] at heq
      obtain ⟨he1, he2⟩ := heq
      subst he1; subst he2
      rw [List.foldl_cons]
      rw [innerFold_preserve f cell cell codeT rest ?hfresh]
      · rw [edgeLookup_addWeight_same, hnone]
        simp
      case hfresh =>
        intro x hx hand
        exact hnd.1 (hand.2 ▸ List.mem_map_of_mem (·.1) hx)
    · have hc0 : c0 ≠ codeT := by
        intro he
        subst he
        exact hnd.1 (List.mem_map_of_mem (·.1) hmem2)
      rw [List.foldl_cons]
      apply ih hnd.2 hmem2
      rw [edgeLookup_addWeight_other]
      · exact hnone
      · intro hc
        rcases hc with ⟨h1, h2⟩ | ⟨h1, h2⟩
        · injection h2 with h2'
          exact hc0 h2'
        · exact MCNode.noConfusion h1

/-- Cells other than the target cell never touch the target (cell, code) edge. -/
theorem outerFold_preserve (f : ConnectDict → ℚ) (cellT codeT : String)
    (gd : List (String × List (String × ConnectDict)))
    (hne : ∀ p ∈ gd, p.1 ≠ cellT) :
    ∀ es, edgeLookup
        (gd.foldl (fun es cellEntry => cellEntry.2.foldl
          (fun es2 ce => addWeight es2 (MCNode.m cellEntry.1) (MCNode.c ce.1) (f ce.2)) es) es)
        (MCNode.m cellT) (MCNode.c codeT) =
      edgeLookup es (MCNode.m cellT) (MCNode.c codeT) := by
  induction gd with
  | nil => intro es; rfl
  | cons p rest ih =>
    intro es
    rw [List.foldl_cons, ih fun x hx => hne x (List.mem_cons_of_mem _ hx)]
    exact innerFold_preserve f p.1 cellT codeT p.2
      (fun ce _ hand => hne p (by simp) hand.1) es

/-- The outer accumulation of `json_to_networkx` puts exactly one contribution
on each (cell, country) pair occurring in the dictionary. -/
theorem outerFold_hit (f : ConnectDict → ℚ) :
    ∀ gd : List (String × List (String × ConnectDict)),
      (gd.map (·.1)).Nodup → (∀ p ∈ gd, (p.2.map (·.1)).Nodup) →
      ∀ (cell : String) (inner : List (String × ConnectDict)) (code : String)
        (d : ConnectDict), (cell, inner) ∈ gd → (code, d) ∈ inner →
      ∀ es, edgeLookup es (MCNode.m cell) (MCNode.c code) = none →
        edgeLookup
            (gd.foldl (fun es1 cellEntry => cellEntry.2.foldl
              (fun es2 ce => addWeight es2 (MCNode.m cellEntry.1) (MCNode.c ce.1) (f ce.2)) es1)
              es)
            (MCNode.m cell) (MCNode.c code) = some (f d) := by
  intro gd
  induction gd with
  | nil =>
    intro _ _ cell inner code d hmem
    simp at hmem
  | cons p rest ih =>
    intro hnd hinner cell inner code d hmem hdm es hnone
    obtain ⟨c0, inner0⟩ := p
    rw [List.map_cons, List.nodup_cons] at hnd
    rw [List.foldl_cons]
    rcases List.mem_cons.mp hmem with heq | hmem2
    · simp only [Prod.mk.injEq] at heq
      obtain ⟨h1, h2⟩ := heq
      subst h1
      subst h2
      rw [outerFold_preserve f cell code rest ?hfreshcells]
      · exact innerFold_hit f cell inner code d (hinner (cell, inner) (by simp)) hdm es hnone
      case hfreshcells =>
        intro x hx he
        exact hnd.1 (he ▸ List.mem_map_of_mem (·.1) hx)
    · have hc0 : c0 ≠ cell := by
        intro he
        subst he
        exact hnd.1 (List.mem_map_of_mem (·.1) hmem2)
      apply ih hnd.2 (fun q hq => hinner q (List.mem_cons_of_mem _ hq)) cell inner code d
        hmem2 hdm
      rw [innerFold_preserve f c0 cell code inner0 fun ce _ hand => hc0 hand.1]
      exact hnone

/-- The shared accumulation of `json_to_networkx` gives each (cell, country)
pair of the input dictionary exactly one contribution, equal to its weight. -/
theorem buildGraphWith_lookup (f : ConnectDict → ℚ)
    (gd : List (String × List (String × ConnectDict)))
    (hnd : (gd.map (·.1)).Nodup) (hinner : ∀ p ∈ gd, (p.2.map (·.1)).Nodup)
    (cell : String) (inner : List (String × ConnectDict)) (code : String) (d : ConnectDict)
    (hmem : (cell, inner) ∈ gd) (hd : (code, d) ∈ inner) :
    edgeLookup (buildGraphWith f gd) (MCNode.m cell) (MCNode.c code) = some (f d) := by
  unfold buildGraphWith
  exact outerFold_hit f gd hnd hinner cell inner code d hmem hd [] rfl

/-- A direction's guarded average written with the code's `count > 0` test
equals the claim's `count = 0` phrasing. -/
theorem dirAverage_eq (s : ℚ) (c : ℕ) :
    (if c > 0 then s / (c : ℚ) else 0) = (if c = 0 then 0 else s / (c : ℚ)) := by
  rcases Nat.eq_zero_or_pos c with h | h
  · simp [h]
  · rw [if_pos h, if_neg (Nat.pos_iff_ne_zero.mp h)]

/-- C9 (confirmed): in `json_to_networkx`, every (cell, country) connection's
undirected edge weight is the sum of the two directional averages, each
directional accumulated sum divided by that direction's own occurrence count
when the count is nonzero and contributing 0 when the count is zero, for the
call graph and the SMS graph alike; no division by a zero count happens, and a
direction with observations keeps its full average when the other is silent. -/
theorem c9_directional_normalization
    (gd : List (String × List (String × ConnectDict)))
    (hnd : (gd.map (·.1)).Nodup) (hinner : ∀ p ∈ gd, (p.2.map (·.1)).Nodup)
    (cell : String) (inner : List (String × ConnectDict)) (code : String) (d : ConnectDict)
    (hmem : (cell, inner) ∈ gd) (hd : (code, d) ∈ inner) :
    edgeLookup (buildCall gd) (MCNode.m cell) (MCNode.c code) =
        some ((if d.callInCount = 0 then 0 else d.callIn / (d.callInCount : ℚ)) +
          (if d.callOutCount = 0 then 0 else d.callOut / (d.callOutCount : ℚ))) ∧
      edgeLookup (buildSms gd) (MCNode.m cell) (MCNode.c code) =
        some ((if d.smsInCount = 0 then 0 else d.smsIn / (d.smsInCount : ℚ)) +
          (if d.smsOutCount = 0 then 0 else d.smsOut / (d.smsOutCount : ℚ))) := by
  constructor
  · rw [buildCall, buildGraphWith_lookup callWeight gd hnd hinner cell inner code d hmem hd]
    rw [callWeight, dirAverage_eq, dirAverage_eq]
  · rw [buildSms, buildGraphWith_lookup smsWeight gd hnd hinner cell inner code d hmem hd]
    rw [smsWeight, dirAverage_eq, dirAverage_eq]

/-- Witness for C9 at one cell and one country: calls observed inbound only
(sum 6, count 2) average to 3; SMS observed inbound only (sum 4, count 2)
average to 2; silent directions contribute 0 without any division. -/
theorem c9_witness :
    edgeLookup (buildCall [("1", [("39", ⟨4, 2, 0, 0, 6, 2, 0, 0, 0⟩)])])
        (MCNode.m "1") (MCNode.c "39") =
      some ((if (2 : ℕ) = 0 then 0 else (6 : ℚ) / ((2 : ℕ) : ℚ)) +
        (if (0 : ℕ) = 0 then 0 else (0 : ℚ) / ((0 : ℕ) : ℚ))) ∧
    edgeLookup (buildSms [("1", [("39", ⟨4, 2, 0, 0, 6, 2, 0, 0, 0⟩)])])
        (MCNode.m "1") (MCNode.c "39") =
      some ((if (2 : ℕ) = 0 then 0 else (4 : ℚ) / ((2 : ℕ) : ℚ)) +
        (if (0 : ℕ) = 0 then 0 else (0 : ℚ) / ((0 : ℕ) : ℚ))) :=
  c9_directional_normalization [("1", [("39", ⟨4, 2, 0, 0, 6, 2, 0, 0, 0⟩)])]
    (by simp) (by simp) "1" [("39", ⟨4, 2, 0, 0, 6, 2, 0, 0, 0⟩)] "39"
    ⟨4, 2, 0, 0, 6, 2, 0, 0, 0⟩ (by simp) (by simp)

end MobileX
